import Mathlib

/-!
# StudyPlanner scheduling core — a shallow embedding and verification

This file embeds the algorithmic core of the StudyPlanner repository
(`scheduling_algorithms.py`, the recurrence-expansion loops of `app.py`, and the
task-completion / recent-task helpers of `database_manager.py`) as executable
Lean definitions, and proves or refutes the specified properties.

Modelling conventions:
* Timestamps are rational numbers of hours; `base` denotes local midnight of the
  calling day, so 08:00 on day offset `d` is `base + 24*d + 8`.  Python float
  arithmetic on hour durations is modelled by exact rational arithmetic.
* Calendar dates are integers (day numbers), chosen so that a day number
  divisible by 7 is a Monday (`weekday 0`), matching Python's
  `date.weekday()` convention 0=Monday..6=Sunday.
* Database access is made explicit: functions that read rows through
  `database_manager` take the relevant list of rows as an argument, and
  functions that write rows return the rows they would insert/update.
* A Python value that may or may not be a `datetime` (the due-date field, which
  the persistence layer actually stores as an ISO `TEXT` column) is modelled by
  an explicit sum type recording both the runtime type and the calendar day the
  value denotes.
-/

namespace StudyPlanner

/-- A schedule block / time interval (`schedule_blocks` row, or any
`{'start_time': ..., 'end_time': ...}` dict), times in rational hours. -/
structure ScheduleBlock where
  start_time : ℚ
  end_time : ℚ
deriving DecidableEq, Repr

/-- A free-time slot as produced by `calculate_free_time`:
`{'start_time': ..., 'duration': ...}`. -/
structure Slot where
  start_time : ℚ
  duration : ℚ
deriving DecidableEq, Repr

/-- Lower end of a slot's interval. -/
def Slot.lo (s : Slot) : ℚ := s.start_time

/-- Upper end of a slot's interval (`start_time + duration`). -/
def Slot.hi (s : Slot) : ℚ := s.start_time + s.duration

/-! ## Conflict detector (`scheduling_algorithms.check_for_conflict`)

The Python function fetches all of the user's schedule blocks (fixed and
flexible) via `db.fetch_all_schedule_blocks(user_id)` and scans them with an
early return; the block list is passed explicitly here. -/

/-- `check_for_conflict`: returns `true` (available) unless some existing block
`b` satisfies `new_start < b.end_time and new_end > b.start_time`. -/
def check_for_conflict : List ScheduleBlock → ℚ → ℚ → Bool
  | [], _, _ => true
  | b :: bs, new_start, new_end =>
      if new_start < b.end_time ∧ new_end > b.start_time then false
      else check_for_conflict bs new_start new_end

/-! ## Priority scorer (`scheduling_algorithms.get_days_until_due`,
`selection_sort_tasks`, `task_prioritization`) -/

/-- The runtime value found in a task's `due_date` field.  `dt delta` is a
`datetime` lying `delta` calendar days from today; `text delta` is any
non-`datetime` value (in the running application: the ISO date string stored by
SQLite) denoting a date `delta` calendar days from today. -/
inductive DueDateValue where
  | dt (delta : Int)
  | text (delta : Int)
deriving DecidableEq, Repr

/-- `get_days_until_due`: `delta = (due.date() - today.date()).days` when the
value is a `datetime`, else `delta = 0`; returns `max(0, delta)`. -/
def get_days_until_due (due : DueDateValue) : Int :=
  max 0 (match due with
    | .dt delta => delta
    | .text _ => delta_fallback)
where
  /-- the `else: delta = 0` branch -/
  delta_fallback : Int := 0

/-- The fields of a task record read by the scorer and the allocator.
`due_date = none` models a dict with no `'due_date'` key
(`task.get('due_date', datetime.now())` then defaults to a `datetime` of
today, i.e. `DueDateValue.dt 0`). -/
structure TaskRecord where
  id : Int
  due_date : Option DueDateValue
  priority_weight : Int
  required_time : ℚ
deriving DecidableEq, Repr

/-- An entry of the scored list: `{'TASK_DETAIL': task, 'SCORE': score}`. -/
structure ScoredTask where
  TASK_DETAIL : TaskRecord
  SCORE : Int
deriving DecidableEq, Repr

/-- The scored (unsorted) list built by `task_prioritization`'s loop:
`SCORE = (90 - days_remaining) * 10 + priority_weight`. -/
def task_priority_list (task_records : List TaskRecord) : List ScoredTask :=
  task_records.map fun task =>
    let days_remaining := get_days_until_due (task.due_date.getD (.dt 0))
    let urgency_score := 90 - days_remaining
    { TASK_DETAIL := task, SCORE := urgency_score * 10 + task.priority_weight }

/-- One iteration of the outer loop of `selection_sort_tasks` applied to the
suffix `x :: xs`: locate the first element of maximal `SCORE` (the inner loop
updates `max_index` only on a strict `>`), swap it with the element at the
front, and return (new front element, rest after the swap). -/
def selection_pass (x : ScoredTask) : List ScoredTask → ScoredTask × List ScoredTask
  | [] => (x, [])
  | y :: ys =>
      if y.SCORE > x.SCORE then
        let p := selection_pass y ys
        (p.1, x :: p.2)
      else
        let p := selection_pass x ys
        (p.1, y :: p.2)

/-- The outer loop of `selection_sort_tasks`; the fuel argument bounds the
number of outer iterations and is instantiated with the list length. -/
def selection_sort_go : Nat → List ScoredTask → List ScoredTask
  | 0, l => l
  | _ + 1, [] => []
  | n + 1, x :: xs =>
      let p := selection_pass x xs
      p.1 :: selection_sort_go n p.2

/-- `selection_sort_tasks`: in-place selection sort by `SCORE` descending
(swap-based, `range(N-1)` outer iterations). -/
def selection_sort_tasks (task_list : List ScoredTask) : List ScoredTask :=
  selection_sort_go task_list.length task_list

/-- `task_prioritization`: score every task, then selection-sort by score. -/
def task_prioritization (task_records : List TaskRecord) : List ScoredTask :=
  selection_sort_tasks (task_priority_list task_records)

/-- Modelled from the spec: the stable descending sort demanded by §4.1
("sorted by score descending, ties broken by original relative order").
Insertion places an element before the first existing element whose score is
not larger, so earlier input elements precede tied later ones. -/
def spec_stable_insert (e : ScoredTask) : List ScoredTask → List ScoredTask
  | [] => [e]
  | x :: xs => if e.SCORE ≥ x.SCORE then e :: x :: xs else x :: spec_stable_insert e xs

/-- Modelled from the spec: stable descending sort by `SCORE` (§4.1). -/
def spec_stable_sort_desc (l : List ScoredTask) : List ScoredTask :=
  l.foldr spec_stable_insert []

/-- Modelled from the spec: §4.1's scoring formula
`(90 − max(0, due_date − today)) × 10 + priority_weight`, where
`due_date − today` is the real calendar distance of the task's due date,
independently of how the value happens to be stored. -/
def spec_score (task : TaskRecord) : Int :=
  let days := max 0 (match task.due_date with
    | some (.dt delta) => delta
    | some (.text delta) => delta
    | none => 0)
  (90 - days) * 10 + task.priority_weight

/-! ## Recurrence expansion (`app.add_activity`, weekly/biweekly branch, and
`app.edit_schedule_block`, recurring branch) -/

/-- Python `date.weekday()` for day number `d` (0=Monday..6=Sunday with our
epoch convention). -/
def weekday_of (d : Int) : Nat := (d % 7).toNat

/-- The dates visited by `while current_date <= recurrence_end` (ascending,
inclusive; empty when the end precedes the start). -/
def date_range (recurrence_start recurrence_end : Int) : List Int :=
  if recurrence_end < recurrence_start then []
  else (List.range ((recurrence_end - recurrence_start).toNat + 1)).map
    fun i => recurrence_start + i

/-- The biweekly filter: `weeks_diff = (current_date - recurrence_start).days // 7`
and the date survives iff `weeks_diff % 2 == 0`.  Inside the loop
`current_date ≥ recurrence_start`, so Python's floor division is Nat division. -/
def biweekly_on_week (recurrence_start d : Int) : Bool :=
  ((d - recurrence_start).toNat / 7) % 2 == 0

/-- The date-level filter of the `add_activity` expansion loop: the weekday
test `(not selected_days) or (str(current_date.weekday()) in selected_days)`,
the `block_end <= block_start` skip, and (for biweekly) the parity skip. -/
def passes_date_filter (biweekly : Bool) (selected_days : List Nat)
    (recurrence_start : Int) (t_start t_end : ℚ) (d : Int) : Bool :=
  (selected_days.isEmpty || selected_days.contains (weekday_of d)) &&
  decide (t_start < t_end) &&
  (!biweekly || biweekly_on_week recurrence_start d)

/-- The dates of the range on which the expansion loop reaches the conflict
check (i.e. builds a candidate block). -/
def candidate_dates (biweekly : Bool) (selected_days : List Nat)
    (recurrence_start recurrence_end : Int) (t_start t_end : ℚ) : List Int :=
  (date_range recurrence_start recurrence_end).filter
    (passes_date_filter biweekly selected_days recurrence_start t_start t_end)

/-- The weekly/biweekly branch of `add_activity`: walk the recurrence period,
apply the date filter, and insert `[day+t_start, day+t_end)` whenever
`check_for_conflict` (run against the pre-existing blocks plus the occurrences
already inserted in this run) reports the range available.  Returns the list
of inserted blocks. -/
def add_activity_expand (existing : List ScheduleBlock) (biweekly : Bool)
    (selected_days : List Nat) (recurrence_start recurrence_end : Int)
    (t_start t_end : ℚ) : List ScheduleBlock :=
  (date_range recurrence_start recurrence_end).foldl
    (fun acc d =>
      if passes_date_filter biweekly selected_days recurrence_start t_start t_end d then
        let block_start : ℚ := 24 * (d : ℚ) + t_start
        let block_end : ℚ := 24 * (d : ℚ) + t_end
        if check_for_conflict (existing ++ acc) block_start block_end then
          acc ++ [⟨block_start, block_end⟩]
        else acc
      else acc)
    []

/-- The weekly/biweekly series branch of `edit_schedule_block`: an empty
weekday selection is rejected (`flash('Please select at least one day')`)
before any block is deleted or inserted; otherwise the old series' blocks are
deleted and the series is re-expanded against the remaining state. -/
def edit_schedule_block_series (all_blocks old_series : List ScheduleBlock)
    (biweekly : Bool) (selected_days : List Nat)
    (recurrence_start recurrence_end : Int) (t_start t_end : ℚ) :
    Except String (List ScheduleBlock) :=
  if selected_days.isEmpty then .error "Please select at least one day"
  else
    let remaining := all_blocks.filter fun b => decide (b ∉ old_series)
    .ok (remaining ++ add_activity_expand remaining biweekly selected_days
      recurrence_start recurrence_end t_start t_end)

/-! ## Free-time window calculator (`scheduling_algorithms.calculate_free_time`) -/

/-- The inner-loop body of `calculate_free_time`'s interval difference: what
remains of one available interval `a` after removing fixed activity `fa` (an
activity entirely outside keeps the interval; one clipping an edge shortens
it; one strictly inside splits it in two). -/
def subtract_pieces (fa a : ScheduleBlock) : List ScheduleBlock :=
  if fa.end_time ≤ a.start_time ∨ fa.start_time ≥ a.end_time then [a]
  else
    (if fa.start_time > a.start_time then [⟨a.start_time, fa.start_time⟩] else []) ++
    (if fa.end_time < a.end_time then [⟨fa.end_time, a.end_time⟩] else [])

/-- Interval difference step: remove fixed activity `fa` from every interval of
`available`, building `new_available` in order. -/
def subtract_fixed (fa : ScheduleBlock) (available : List ScheduleBlock) :
    List ScheduleBlock :=
  available.flatMap (subtract_pieces fa)

/-- The per-day computation: start from the base window
`[base+24*d+08:00, base+24*d+22:00]` and subtract each fixed activity in turn.
`base` is local midnight of the calling day; unparseable activity rows are
skipped by the `except: continue`, so `fixed_activities` holds the parsed
ones. -/
def day_available (base : ℚ) (d : Nat) (fixed_activities : List ScheduleBlock) :
    List ScheduleBlock :=
  fixed_activities.foldl (fun available fa => subtract_fixed fa available)
    [⟨base + 24 * d + 8, base + 24 * d + 22⟩]

/-- `calculate_free_time` with the default `days_window=7`: for each day offset
`d = 1..7`, keep every remaining piece of duration at least `0.25` hours as a
`{'start_time', 'duration'}` slot, in chronological order. -/
def calculate_free_time (base : ℚ) (fixed_activities : List ScheduleBlock) :
    List Slot :=
  (List.range 7).flatMap fun i =>
    ((day_available base (i + 1) fixed_activities).filter
        fun a => decide (a.end_time - a.start_time ≥ 1/4)).map
      fun a => ⟨a.start_time, a.end_time - a.start_time⟩

/-! ## Greedy allocator (`scheduling_algorithms.allocate_time_slots`) -/

/-- The inner slot loop for one task: scan the shared slot pool in order,
breaking once `remaining ≤ 0`; in each slot take
`allocation = min(remaining, slot.duration)` (skipping the slot when the
allocation is not positive), emit the block
`[slot.start_time, slot.start_time + allocation)`, and advance the slot.
Returns (emitted blocks, updated slot pool, final remaining). -/
def allocate_for_task : ℚ → List Slot → List ScheduleBlock × List Slot × ℚ
  | remaining, [] => ([], [], remaining)
  | remaining, slot :: rest =>
      if remaining ≤ 0 then ([], slot :: rest, remaining)
      else
        let allocation := min remaining slot.duration
        if allocation ≤ 0 then
          let p := allocate_for_task remaining rest
          (p.1, slot :: p.2.1, p.2.2)
        else
          let start_time := slot.start_time
          let end_time := start_time + allocation
          let p := allocate_for_task (remaining - allocation) rest
          (⟨start_time, end_time⟩ :: p.1,
           ⟨end_time, slot.duration - allocation⟩ :: p.2.1, p.2.2)

/-- The outer task loop of `allocate_time_slots`: thread the shared slot pool
through the prioritized tasks (given as `(task_id, required_time)` pairs, the
two fields the loop reads); collect all inserted flexible blocks and the ids
set to `INSUFFICIENT_TIME_WARNING` (`remaining > 0` after the slot scan). -/
def allocate_all : List (Int × ℚ) → List Slot → List ScheduleBlock × List Int
  | [], _ => ([], [])
  | (task_id, required) :: ts, slots =>
      let p := allocate_for_task required slots
      let q := allocate_all ts p.2.1
      (p.1 ++ q.1, (if p.2.2 > 0 then [task_id] else []) ++ q.2)

/-- The per-task final remainders, exposing the loop's `remaining` value after
the slot scan for each task in order. -/
def task_remainders : List (Int × ℚ) → List Slot → List (Int × ℚ)
  | [], _ => []
  | (task_id, required) :: ts, slots =>
      let p := allocate_for_task required slots
      (task_id, p.2.2) :: task_remainders ts p.2.1

/-- The per-task emitted block lists, in task order. -/
def per_task_blocks : List (Int × ℚ) → List Slot → List (List ScheduleBlock)
  | [], _ => []
  | (_, required) :: ts, slots =>
      let p := allocate_for_task required slots
      p.1 :: per_task_blocks ts p.2.1

/-- The side effects of one `allocate_time_slots` call. -/
structure AllocationOutcome where
  blocks : List ScheduleBlock
  warned : List Int
deriving DecidableEq, Repr

/-- `allocate_time_slots`: compute the free slots from the user's fixed
activities; if the slot list is empty, return with no effect at all
(`if not available_slots: return`); otherwise run the greedy allocation. -/
def allocate_time_slots (base : ℚ) (fixed_activities : List ScheduleBlock)
    (prioritized : List (Int × ℚ)) : AllocationOutcome :=
  let available_slots := calculate_free_time base fixed_activities
  if available_slots.isEmpty then ⟨[], []⟩
  else
    let p := allocate_all prioritized available_slots
    ⟨p.1, p.2⟩

/-! ## Task completion (`database_manager.handle_task_completion`,
`scheduling_algorithms.dynamic_rescheduling`) -/

/-- A `tasks` row as read by the completion operations. -/
structure TaskRow where
  id : Int
  status : String
  is_recurring : Bool
  due_date : Int
  completion_date : Option Int
  required_time : ℚ
deriving DecidableEq, Repr

/-- `handle_task_completion`: `None` when the row is missing; a recurring task
gets `due_date += 7 days` and `status = 'PENDING'`; any other task —
regardless of its current status — gets `status = 'COMPLETED'` and
`completion_date = today`.  Returns the written row. -/
def handle_task_completion (today : Int) : Option TaskRow → Option TaskRow
  | none => none
  | some task =>
      if task.is_recurring then
        some { task with due_date := task.due_date + 7, status := "PENDING" }
      else
        some { task with status := "COMPLETED", completion_date := some today }

/-- `dynamic_rescheduling`: a no-op (`none`) when the task is missing or its
status is already `COMPLETED`; otherwise marks it `COMPLETED` and frees
`required_time` hours of subject progress.  Returns the status write and the
freed amount, or `none` when nothing is written. -/
def dynamic_rescheduling : Option TaskRow → Option (TaskRow × ℚ)
  | none => none
  | some task =>
      if task.status = "COMPLETED" then none
      else some ({ task with status := "COMPLETED" }, task.required_time)

/-! ## Weekly status (`scheduling_algorithms.calculate_weekly_status`,
`database_manager.fetch_recent_tasks`) -/

/-- The runtime value of a weekly task's `due_date` field: a parseable
`'%Y-%m-%d'` string, an unparseable string, a `datetime`, or a missing key
(`t.get('due_date', current_date)` then yields the current date). -/
inductive DueField where
  | strValid (day : Int)
  | strInvalid
  | dtVal (day : Int)
  | missing
deriving DecidableEq, Repr

/-- The due day the classification loop ends up comparing against, after the
string-parse / `datetime` / fallback cascade. -/
def effective_due (current_day : Int) : DueField → Int
  | .strValid day => day
  | .strInvalid => current_day
  | .dtVal day => day
  | .missing => current_day

/-- A `tasks` row as read by the weekly aggregator. -/
structure WeeklyTask where
  id : Int
  due : DueField
  status : String
deriving DecidableEq, Repr

/-- The weekly metrics dict. -/
structure WeeklyMetrics where
  COMPLETED : Nat
  PENDING : Nat
  MISSED : Nat
deriving DecidableEq, Repr

/-- The classification loop of `calculate_weekly_status`: tasks due before
`current_day - 7` are skipped; `COMPLETED` status counts as completed;
otherwise a past due day counts as missed, a future/today one as pending. -/
def weekly_counts (current_day : Int) : List WeeklyTask → WeeklyMetrics
  | [] => ⟨0, 0, 0⟩
  | t :: ts =>
      let m := weekly_counts current_day ts
      let due := effective_due current_day t.due
      if due < current_day - 7 then m
      else if t.status = "COMPLETED" then { m with COMPLETED := m.COMPLETED + 1 }
      else if due < current_day then { m with MISSED := m.MISSED + 1 }
      else { m with PENDING := m.PENDING + 1 }

/-- Insertion step of the `ORDER BY id DESC` model. -/
def insert_by_id_desc (t : WeeklyTask) : List WeeklyTask → List WeeklyTask
  | [] => [t]
  | u :: us => if t.id ≥ u.id then t :: u :: us else u :: insert_by_id_desc t us

/-- The user's task table ordered by `id DESC`. -/
def order_by_id_desc (table : List WeeklyTask) : List WeeklyTask :=
  table.foldr insert_by_id_desc []

/-- `fetch_recent_tasks` with the default `limit=5`:
`SELECT * FROM tasks WHERE user_id = ? ORDER BY id DESC LIMIT 5`. -/
def fetch_recent_tasks (table : List WeeklyTask) : List WeeklyTask :=
  (order_by_id_desc table).take 5

/-- `calculate_weekly_status`: classify the rows returned by
`fetch_recent_tasks`. -/
def calculate_weekly_status (current_day : Int) (table : List WeeklyTask) :
    WeeklyMetrics :=
  weekly_counts current_day (fetch_recent_tasks table)

/-! ## Theorems -/

/-- Elements accumulated by a fold that only ever appends: any member of the
result is either an initial member or arises, with property `P`, from some
visited element. -/
lemma foldl_insert_mem {α β : Type _} (f : List β → α → List β) (P : β → α → Prop)
    (hf : ∀ acc d b, b ∈ f acc d → b ∈ acc ∨ P b d) :
    ∀ (l : List α) (acc : List β) (b : β), b ∈ l.foldl f acc → b ∈ acc ∨ ∃ d ∈ l, P b d := by
  intro l
  induction l with
  | nil => intro acc b hb; exact Or.inl hb
  | cons d ds ih =>
      intro acc b hb
      simp only [List.foldl_cons] at hb
      rcases ih (f acc d) b hb with h | ⟨d', hd', hP⟩
      · rcases hf acc d b h with h' | hP
        · exact Or.inl h'
        · exact Or.inr ⟨d, List.mem_cons_self d ds, hP⟩
      · exact Or.inr ⟨d', List.mem_cons_of_mem d hd', hP⟩

/-- Every block inserted by the `add_activity` expansion loop is the candidate
block of some date that passed the date filter. -/
lemma add_activity_expand_mem (existing : List ScheduleBlock) (biweekly : Bool)
    (selected_days : List Nat) (recurrence_start recurrence_end : Int)
    (t_start t_end : ℚ) (b : ScheduleBlock)
    (hb : b ∈ add_activity_expand existing biweekly selected_days
        recurrence_start recurrence_end t_start t_end) :
    ∃ d ∈ candidate_dates biweekly selected_days recurrence_start recurrence_end
        t_start t_end,
      b = ⟨24 * (d : ℚ) + t_start, 24 * (d : ℚ) + t_end⟩ := by
  unfold add_activity_expand at hb
  have h := foldl_insert_mem _
    (fun b d => passes_date_filter biweekly selected_days recurrence_start t_start t_end d = true
      ∧ b = (⟨24 * (d : ℚ) + t_start, 24 * (d : ℚ) + t_end⟩ : ScheduleBlock))
    ?_ _ _ _ hb
  · rcases h with h | ⟨d, hd, hp, he⟩
    · simp at h
    · exact ⟨d, by simp [candidate_dates, List.mem_filter, hd, hp], he⟩
  · intro acc d x hx
    by_cases hp : passes_date_filter biweekly selected_days recurrence_start t_start t_end d = true
    · simp only [hp, if_true] at hx
      by_cases hc : check_for_conflict (existing ++ acc)
          (24 * (d : ℚ) + t_start) (24 * (d : ℚ) + t_end) = true
      · simp only [hc, if_true, List.mem_append, List.mem_singleton] at hx
        rcases hx with hx | hx
        · exact Or.inl hx
        · exact Or.inr ⟨hp, hx⟩
      · simp only [Bool.not_eq_true] at hc
        simp only [hc, if_false] at hx
        exact Or.inl hx
    · simp only [Bool.not_eq_true] at hp
      simp only [hp, if_false] at hx
      exact Or.inl hx

/-- C9: `check_for_conflict(user, start, end)` returns `true` ("available")
iff no existing schedule block of that user overlaps the half-open candidate
interval, where `[s1,e1)` and `[s2,e2)` overlap iff `s1 < e2` and `s2 < e1`;
in particular intervals that merely touch are never conflicts. -/
theorem C9_conflict_detector_halfopen (blocks : List ScheduleBlock)
    (new_start new_end : ℚ) :
    check_for_conflict blocks new_start new_end = true ↔
      ∀ b ∈ blocks, ¬(new_start < b.end_time ∧ b.start_time < new_end) := by
  induction blocks with
  | nil => simp [check_for_conflict]
  | cons b bs ih =>
      by_cases h : new_start < b.end_time ∧ new_end > b.start_time
      · rw [check_for_conflict, if_pos h]
        simp only [List.forall_mem_cons]
        constructor
        · intro hfalse; exact absurd hfalse (by simp)
        · intro hc; exact absurd ⟨h.1, h.2⟩ hc.1
      · rw [check_for_conflict, if_neg h, ih]
        simp only [List.forall_mem_cons]
        exact ⟨fun hall => ⟨fun hc => h ⟨hc.1, hc.2⟩, hall⟩, fun hc => hc.2⟩

/-- C4: the claimed scoring formula
`(90 − max(0, days until due)) × 10 + priority_weight` disagrees with the
code on the due dates the persistence layer actually delivers: `due_date` is a
SQLite `TEXT` column, `fetch_tasks` returns it as a string, and
`get_days_until_due` silently maps every non-`datetime` value to 0 days.  A
pending task due 30 days from today with priority weight 1 is scored 901 by
`task_prioritization`, while the specified formula yields 601. -/
theorem C4_scorer_ignores_stored_due_dates :
    task_prioritization [⟨1, some (.text 30), 1, 1⟩] =
      [⟨⟨1, some (.text 30), 1, 1⟩, 901⟩]
    ∧ spec_score ⟨1, some (.text 30), 1, 1⟩ = 601
    ∧ (901 : Int) ≠ 601 := by
  decide

/-- C5 counterexample: in `add_activity`, submitting a weekly recurrence with
an empty weekday set is NOT rejected: the loop's weekday test
`(not selected_days) or ...` treats the empty set as matching every date, so
schedule blocks are inserted (here: a one-day range inserts one block). -/
theorem C5_counterexample_empty_weekdays_insert :
    add_activity_expand [] false [] 0 0 9 10 ≠ [] := by
  decide

/-- C5 (amended): only `edit_schedule_block` rejects an empty weekday set for
a weekly/biweekly recurrence before any state mutation; `add_activity` does
not reject it — its date filter degenerates to the time-validity and parity
tests alone, so every date of the range is treated as selected. -/
theorem C5_amended_empty_weekdays (all_blocks old_series : List ScheduleBlock)
    (biweekly : Bool) (recurrence_start recurrence_end d : Int) (t_start t_end : ℚ) :
    edit_schedule_block_series all_blocks old_series biweekly []
        recurrence_start recurrence_end t_start t_end =
      .error "Please select at least one day"
    ∧ passes_date_filter biweekly [] recurrence_start t_start t_end d =
        (decide (t_start < t_end) && (!biweekly || biweekly_on_week recurrence_start d)) := by
  constructor
  · simp [edit_schedule_block_series]
  · simp [passes_date_filter]

/-- C6 counterexample: invoking the completion operation on a non-recurring
task whose status is already `COMPLETED` is not a no-op:
`handle_task_completion` re-stamps `completion_date` with today's date (here
day 200 replaces the stored day 100), so the stored state changes. -/
theorem C6_counterexample_completion_not_noop :
    handle_task_completion 200 (some ⟨1, "COMPLETED", false, 0, some 100, 1⟩) ≠
      some ⟨1, "COMPLETED", false, 0, some 100, 1⟩ := by
  decide

/-- C6 (amended): completing an already-`COMPLETED` non-recurring task skips
the progress update (`dynamic_rescheduling` returns without writing), but
`handle_task_completion` still rewrites the row, re-stamping its
`completion_date` to today and reporting ordinary success — not
"not found/already done". -/
theorem C6_amended_completion_restamps_date (today : Int) (task : TaskRow)
    (hs : task.status = "COMPLETED") (hr : task.is_recurring = false) :
    handle_task_completion today (some task) =
      some { task with status := "COMPLETED", completion_date := some today }
    ∧ dynamic_rescheduling (some task) = none := by
  constructor
  · simp [handle_task_completion, hr]
  · simp [dynamic_rescheduling, hs]

/-- Witness for C6 (amended) at a concrete already-completed row. -/
theorem C6_amended_witness :
    handle_task_completion 200 (some ⟨1, "COMPLETED", false, 0, some 100, 1⟩) =
      some { (⟨1, "COMPLETED", false, 0, some 100, 1⟩ : TaskRow) with
        status := "COMPLETED", completion_date := some 200 }
    ∧ dynamic_rescheduling (some ⟨1, "COMPLETED", false, 0, some 100, 1⟩) = none :=
  C6_amended_completion_restamps_date 200 _ rfl rfl

/-- C7: during biweekly expansion, a date `d` of the range whose weekday is
selected builds a candidate block iff
`floor((d − rangeStart).days / 7) mod 2 == 0`; the parity is anchored to the
range start and shared by all weekdays (the formula does not mention the
weekday).  With the range starting on a Monday and `{Mon}` selected, a 28-day
range yields candidates exactly on weeks 0 and 2; and every block the
expansion actually inserts stems from such a candidate date. -/
theorem C7_biweekly_parity_anchor (selected_days : List Nat)
    (recurrence_start recurrence_end d : Int) (t_start t_end : ℚ)
    (hw : weekday_of d ∈ selected_days) (ht : t_start < t_end) :
    (d ∈ candidate_dates true selected_days recurrence_start recurrence_end
        t_start t_end ↔
      d ∈ date_range recurrence_start recurrence_end ∧
        ((d - recurrence_start).toNat / 7) % 2 = 0)
    ∧ candidate_dates true [0] 0 27 9 10 = [0, 14]
    ∧ ∀ existing b, b ∈ add_activity_expand existing true selected_days
          recurrence_start recurrence_end t_start t_end →
        ∃ d' ∈ candidate_dates true selected_days recurrence_start
            recurrence_end t_start t_end,
          b = ⟨24 * (d' : ℚ) + t_start, 24 * (d' : ℚ) + t_end⟩ := by
  refine ⟨?_, by decide, fun existing b hb => add_activity_expand_mem _ _ _ _ _ _ _ b hb⟩
  simp only [candidate_dates, List.mem_filter, passes_date_filter, ht,
    decide_eq_true_eq, List.contains, List.elem_eq_mem]
  simp [hw, biweekly_on_week, Nat.beq_eq_true_eq]

/-- Witness for C7 at the spec's own example: range start on a Monday
(day 0), `{Mon}` selected, 28-day range, date 14 (week 2). -/
theorem C7_witness :
    (14 ∈ candidate_dates true [0] 0 27 9 10 ↔
      (14 : Int) ∈ date_range 0 27 ∧ (((14 : Int) - 0).toNat / 7) % 2 = 0)
    ∧ candidate_dates true [0] 0 27 9 10 = [0, 14]
    ∧ ∀ existing b, b ∈ add_activity_expand existing true [0] 0 27 9 10 →
        ∃ d' ∈ candidate_dates true [0] 0 27 9 10,
          b = ⟨24 * (d' : ℚ) + 9, 24 * (d' : ℚ) + 10⟩ :=
  C7_biweekly_parity_anchor [0] 0 27 14 9 10 (by decide) (by decide)

/-- `selection_pass` preserves the length of the suffix. -/
lemma selection_pass_length (x : ScoredTask) (xs : List ScoredTask) :
    (selection_pass x xs).2.length = xs.length := by
  induction xs generalizing x with
  | nil => rfl
  | cons y ys ih =>
      by_cases h : y.SCORE > x.SCORE
      · simp [selection_pass, h, ih]
      · simp [selection_pass, h, ih]

/-- `selection_pass` permutes the elements it is given. -/
lemma selection_pass_perm (x : ScoredTask) (xs : List ScoredTask) :
    List.Perm ((selection_pass x xs).1 :: (selection_pass x xs).2) (x :: xs) := by
  induction xs generalizing x with
  | nil => exact List.Perm.refl _
  | cons y ys ih =>
      by_cases h : y.SCORE > x.SCORE
      · simp only [selection_pass, if_pos h]
        exact (List.Perm.swap x _ _).trans ((ih y).cons x)
      · simp only [selection_pass, if_neg h]
        exact ((List.Perm.swap y _ _).trans ((ih x).cons y)).trans (List.Perm.swap x y ys)

/-- The element `selection_pass` moves to the front has maximal score. -/
lemma selection_pass_max (x : ScoredTask) (xs : List ScoredTask) :
    ∀ z ∈ x :: xs, z.SCORE ≤ (selection_pass x xs).1.SCORE := by
  induction xs generalizing x with
  | nil =>
      intro z hz
      simp only [List.mem_singleton] at hz
      subst hz
      exact le_refl _
  | cons y ys ih =>
      intro z hz
      by_cases h : y.SCORE > x.SCORE
      · simp only [selection_pass, if_pos h]
        rcases List.mem_cons.mp hz with hz | hz
        · subst hz
          exact le_trans (le_of_lt h) (ih y y (List.mem_cons_self y ys))
        · exact ih y z hz
      · simp only [selection_pass, if_neg h]
        rcases List.mem_cons.mp hz with hz | hz
        · rw [hz]
          exact ih x x (List.mem_cons_self x ys)
        · rcases List.mem_cons.mp hz with hz | hz
          · rw [hz]
            exact le_trans (not_lt.mp h) (ih x x (List.mem_cons_self x ys))
          · exact ih x z (List.mem_cons_of_mem x hz)

/-- The selection-sort loop permutes its input. -/
lemma selection_sort_go_perm : ∀ (n : Nat) (l : List ScoredTask), l.length ≤ n →
    List.Perm (selection_sort_go n l) l := by
  intro n
  induction n with
  | zero => intro l _; exact List.Perm.refl _
  | succ n ih =>
      intro l h
      cases l with
      | nil => exact List.Perm.refl _
      | cons x xs =>
          simp only [selection_sort_go]
          have hlen : (selection_pass x xs).2.length ≤ n := by
            rw [selection_pass_length]
            simpa using Nat.le_of_succ_le_succ (by simpa using h)
          exact ((ih _ hlen).cons _).trans (selection_pass_perm x xs)

/-- The selection-sort loop sorts by score descending. -/
lemma selection_sort_go_sorted : ∀ (n : Nat) (l : List ScoredTask), l.length ≤ n →
    List.Pairwise (fun a b => b.SCORE ≤ a.SCORE) (selection_sort_go n l) := by
  intro n
  induction n with
  | zero =>
      intro l h
      have : l = [] := List.eq_nil_of_length_eq_zero (Nat.le_zero.mp h)
      subst this
      simp [selection_sort_go]
  | succ n ih =>
      intro l h
      cases l with
      | nil => simp [selection_sort_go]
      | cons x xs =>
          simp only [selection_sort_go]
          have hlen : (selection_pass x xs).2.length ≤ n := by
            rw [selection_pass_length]
            simpa using Nat.le_of_succ_le_succ (by simpa using h)
          rw [List.pairwise_cons]
          refine ⟨fun b hb => ?_, ih _ hlen⟩
          have hb' : b ∈ (selection_pass x xs).2 :=
            (selection_sort_go_perm n _ hlen).mem_iff.mp hb
          have hbx : b ∈ x :: xs :=
            (selection_pass_perm x xs).mem_iff.mp (List.mem_cons_of_mem _ hb')
          exact selection_pass_max x xs b hbx

/-- C3 counterexample: `task_prioritization` (a swap-based selection sort) is
not the stable descending sort the spec describes.  Three tasks scoring
901, 901, 911: swapping the maximum (id 3) to the front moves the first tied
task (id 1) behind the second (id 2), producing id order [3, 2, 1] where the
stable sort gives [3, 1, 2]. -/
theorem C3_counterexample_not_stable :
    task_prioritization [⟨1, some (.text 0), 1, 1⟩, ⟨2, some (.text 0), 1, 1⟩,
        ⟨3, some (.text 0), 11, 1⟩] ≠
      spec_stable_sort_desc (task_priority_list [⟨1, some (.text 0), 1, 1⟩,
        ⟨2, some (.text 0), 1, 1⟩, ⟨3, some (.text 0), 11, 1⟩])
    ∧ (task_prioritization [⟨1, some (.text 0), 1, 1⟩, ⟨2, some (.text 0), 1, 1⟩,
        ⟨3, some (.text 0), 11, 1⟩]).map (fun e => e.TASK_DETAIL.id) = [3, 2, 1]
    ∧ (spec_stable_sort_desc (task_priority_list [⟨1, some (.text 0), 1, 1⟩,
        ⟨2, some (.text 0), 1, 1⟩, ⟨3, some (.text 0), 11, 1⟩])).map
        (fun e => e.TASK_DETAIL.id) = [3, 1, 2] := by
  refine ⟨by decide, by decide, by decide⟩

/-- C3 (amended): `task_prioritization` returns the scored tasks sorted by
score in descending order, as a permutation of the scored input; tied tasks
appear in the order the selection sort's swaps leave them, which need not be
the original relative order. -/
theorem C3_amended_sorted_descending_perm (task_records : List TaskRecord) :
    List.Perm (task_prioritization task_records) (task_priority_list task_records)
    ∧ List.Pairwise (fun a b => b.SCORE ≤ a.SCORE)
        (task_prioritization task_records) :=
  ⟨selection_sort_go_perm _ _ le_rfl, selection_sort_go_sorted _ _ le_rfl⟩

/-- Membership in an `insert_by_id_desc` insertion. -/
lemma insert_by_id_desc_mem (t : WeeklyTask) (l : List WeeklyTask) (z : WeeklyTask) :
    z ∈ insert_by_id_desc t l ↔ z = t ∨ z ∈ l := by
  induction l with
  | nil => simp [insert_by_id_desc]
  | cons u us ih =>
      by_cases h : t.id ≥ u.id
      · simp [insert_by_id_desc, h]
      · simp only [insert_by_id_desc, if_neg h, List.mem_cons, ih]
        tauto

/-- `insert_by_id_desc` preserves descending id order. -/
lemma insert_by_id_desc_sorted (t : WeeklyTask) (l : List WeeklyTask)
    (h : List.Pairwise (fun a b => b.id ≤ a.id) l) :
    List.Pairwise (fun a b => b.id ≤ a.id) (insert_by_id_desc t l) := by
  induction l with
  | nil => simp [insert_by_id_desc]
  | cons u us ih =>
      rcases List.pairwise_cons.mp h with ⟨hu, hus⟩
      by_cases hge : t.id ≥ u.id
      · simp only [insert_by_id_desc, if_pos hge]
        rw [List.pairwise_cons]
        refine ⟨fun z hz => ?_, h⟩
        rcases List.mem_cons.mp hz with hz | hz
        · subst hz; exact hge
        · exact le_trans (hu z hz) hge
      · simp only [insert_by_id_desc, if_neg hge]
        rw [List.pairwise_cons]
        refine ⟨fun z hz => ?_, ih hus⟩
        rcases (insert_by_id_desc_mem t us z).mp hz with hz | hz
        · subst hz; exact le_of_lt (not_le.mp hge)
        · exact hu z hz

/-- The `ORDER BY id DESC` model is sorted by id descending. -/
lemma order_by_id_desc_sorted (table : List WeeklyTask) :
    List.Pairwise (fun a b => b.id ≤ a.id) (order_by_id_desc table) := by
  induction table with
  | nil => simp [order_by_id_desc]
  | cons t ts ih =>
      simp only [order_by_id_desc, List.foldr_cons]
      exact insert_by_id_desc_sorted t _ ih

/-- The `ORDER BY id DESC` model preserves the set of rows. -/
lemma order_by_id_desc_mem (table : List WeeklyTask) (z : WeeklyTask) :
    z ∈ order_by_id_desc table ↔ z ∈ table := by
  induction table with
  | nil => simp [order_by_id_desc]
  | cons t ts ih =>
      simp only [order_by_id_desc] at ih
      simp only [order_by_id_desc, List.foldr_cons]
      rw [insert_by_id_desc_mem, ih, List.mem_cons]

/-- The three weekly buckets together count at most one unit per row. -/
lemma weekly_counts_sum_le (current_day : Int) (l : List WeeklyTask) :
    (weekly_counts current_day l).COMPLETED + (weekly_counts current_day l).PENDING +
      (weekly_counts current_day l).MISSED ≤ l.length := by
  induction l with
  | nil => simp [weekly_counts]
  | cons t ts ih =>
      by_cases h1 : effective_due current_day t.due < current_day - 7
      · simp only [weekly_counts, if_pos h1, List.length_cons]
        exact Nat.le_succ_of_le ih
      · by_cases h2 : t.status = "COMPLETED"
        · simp only [weekly_counts, if_neg h1, if_pos h2, List.length_cons]
          omega
        · by_cases h3 : effective_due current_day t.due < current_day
          · simp only [weekly_counts, if_neg h1, if_neg h2, if_pos h3, List.length_cons]
            omega
          · simp only [weekly_counts, if_neg h1, if_neg h2, if_neg h3, List.length_cons]
            omega

/-- C10: the weekly status operation derives its counts from at most the five
most recently created tasks: it classifies exactly the rows of
`fetch_recent_tasks` (`ORDER BY id DESC LIMIT 5`), that list has at most five
rows, each of them has an id at least as large as any task left out, and the
three buckets together never exceed five — so an older task is never counted
in any bucket. -/
theorem C10_weekly_status_recent_five (current_day : Int) (table : List WeeklyTask)
    (t : WeeklyTask) (ht : t ∈ table) (hnt : t ∉ fetch_recent_tasks table) :
    (∀ u ∈ fetch_recent_tasks table, t.id ≤ u.id)
    ∧ calculate_weekly_status current_day table =
        weekly_counts current_day (fetch_recent_tasks table)
    ∧ (fetch_recent_tasks table).length ≤ 5
    ∧ (calculate_weekly_status current_day table).COMPLETED +
        (calculate_weekly_status current_day table).PENDING +
        (calculate_weekly_status current_day table).MISSED ≤ 5 := by
  have hlen : (fetch_recent_tasks table).length ≤ 5 := by
    rw [fetch_recent_tasks, List.length_take]
    exact min_le_left _ _
  refine ⟨?_, rfl, hlen, ?_⟩
  · have hmem : t ∈ order_by_id_desc table := (order_by_id_desc_mem _ _).mpr ht
    have hsplit := List.take_append_drop 5 (order_by_id_desc table)
    have hdrop : t ∈ (order_by_id_desc table).drop 5 := by
      rcases List.mem_append.mp (hsplit ▸ hmem) with h | h
      · exact absurd h hnt
      · exact h
    have hpw := order_by_id_desc_sorted table
    rw [← hsplit] at hpw
    intro u hu
    exact (List.pairwise_append.mp hpw).2.2 u hu t hdrop
  · exact le_trans (weekly_counts_sum_le current_day (fetch_recent_tasks table)) hlen

/-- Witness for C10: six pending tasks with ids 1..6; the oldest (id 1) is
outside the five most recent and is never counted. -/
theorem C10_witness :
    (∀ u ∈ fetch_recent_tasks [⟨1, .missing, "PENDING"⟩, ⟨2, .missing, "PENDING"⟩,
        ⟨3, .missing, "PENDING"⟩, ⟨4, .missing, "PENDING"⟩, ⟨5, .missing, "PENDING"⟩,
        ⟨6, .missing, "PENDING"⟩],
      (⟨1, .missing, "PENDING"⟩ : WeeklyTask).id ≤ u.id)
    ∧ calculate_weekly_status 0 [⟨1, .missing, "PENDING"⟩, ⟨2, .missing, "PENDING"⟩,
        ⟨3, .missing, "PENDING"⟩, ⟨4, .missing, "PENDING"⟩, ⟨5, .missing, "PENDING"⟩,
        ⟨6, .missing, "PENDING"⟩] =
      weekly_counts 0 (fetch_recent_tasks [⟨1, .missing, "PENDING"⟩,
        ⟨2, .missing, "PENDING"⟩, ⟨3, .missing, "PENDING"⟩, ⟨4, .missing, "PENDING"⟩,
        ⟨5, .missing, "PENDING"⟩, ⟨6, .missing, "PENDING"⟩])
    ∧ (fetch_recent_tasks [⟨1, .missing, "PENDING"⟩, ⟨2, .missing, "PENDING"⟩,
        ⟨3, .missing, "PENDING"⟩, ⟨4, .missing, "PENDING"⟩, ⟨5, .missing, "PENDING"⟩,
        ⟨6, .missing, "PENDING"⟩]).length ≤ 5
    ∧ (calculate_weekly_status 0 [⟨1, .missing, "PENDING"⟩, ⟨2, .missing, "PENDING"⟩,
        ⟨3, .missing, "PENDING"⟩, ⟨4, .missing, "PENDING"⟩, ⟨5, .missing, "PENDING"⟩,
        ⟨6, .missing, "PENDING"⟩]).COMPLETED +
      (calculate_weekly_status 0 [⟨1, .missing, "PENDING"⟩, ⟨2, .missing, "PENDING"⟩,
        ⟨3, .missing, "PENDING"⟩, ⟨4, .missing, "PENDING"⟩, ⟨5, .missing, "PENDING"⟩,
        ⟨6, .missing, "PENDING"⟩]).PENDING +
      (calculate_weekly_status 0 [⟨1, .missing, "PENDING"⟩, ⟨2, .missing, "PENDING"⟩,
        ⟨3, .missing, "PENDING"⟩, ⟨4, .missing, "PENDING"⟩, ⟨5, .missing, "PENDING"⟩,
        ⟨6, .missing, "PENDING"⟩]).MISSED ≤ 5 :=
  C10_weekly_status_recent_five 0 _ ⟨1, .missing, "PENDING"⟩ (by decide) (by decide)

/-- Every piece left of interval `a` lies inside `a`. -/
lemma subtract_pieces_bounds (fa a x : ScheduleBlock) (hx : x ∈ subtract_pieces fa a) :
    a.start_time ≤ x.start_time ∧ x.end_time ≤ a.end_time := by
  rw [subtract_pieces] at hx
  by_cases h : fa.end_time ≤ a.start_time ∨ fa.start_time ≥ a.end_time
  · rw [if_pos h] at hx
    simp only [List.mem_singleton] at hx
    subst hx
    exact ⟨le_refl _, le_refl _⟩
  · rw [if_neg h] at hx
    push_neg at h
    rcases List.mem_append.mp hx with hx | hx
    · by_cases h1 : fa.start_time > a.start_time
      · rw [if_pos h1] at hx
        simp only [List.mem_singleton] at hx
        subst hx
        exact ⟨le_refl _, le_of_lt h.2⟩
      · rw [if_neg h1] at hx
        simp at hx
    · by_cases h2 : fa.end_time < a.end_time
      · rw [if_pos h2] at hx
        simp only [List.mem_singleton] at hx
        subst hx
        exact ⟨le_of_lt h.1, le_refl _⟩
      · rw [if_neg h2] at hx
        simp at hx

/-- The pieces of one interval are chronologically separated, provided the
subtracted fixed activity is well-formed (`start ≤ end`). -/
lemma subtract_pieces_sep (fa a : ScheduleBlock) (hfa : fa.start_time ≤ fa.end_time) :
    List.Pairwise (fun u v => u.end_time ≤ v.start_time) (subtract_pieces fa a) := by
  rw [subtract_pieces]
  by_cases h : fa.end_time ≤ a.start_time ∨ fa.start_time ≥ a.end_time
  · rw [if_pos h]; simp
  · rw [if_neg h]
    by_cases h1 : fa.start_time > a.start_time <;> by_cases h2 : fa.end_time < a.end_time <;>
      simp [h1, h2, hfa]

/-- Interval subtraction keeps each remaining piece inside an original
interval. -/
lemma subtract_fixed_sub (fa : ScheduleBlock) (available : List ScheduleBlock)
    (x : ScheduleBlock) (hx : x ∈ subtract_fixed fa available) :
    ∃ a ∈ available, a.start_time ≤ x.start_time ∧ x.end_time ≤ a.end_time := by
  rw [subtract_fixed, List.mem_flatMap] at hx
  obtain ⟨a, ha, hxa⟩ := hx
  exact ⟨a, ha, subtract_pieces_bounds fa a x hxa⟩

/-- Interval subtraction preserves chronological separation. -/
lemma subtract_fixed_sep (fa : ScheduleBlock) (available : List ScheduleBlock)
    (hfa : fa.start_time ≤ fa.end_time)
    (hsep : List.Pairwise (fun u v => u.end_time ≤ v.start_time) available) :
    List.Pairwise (fun u v => u.end_time ≤ v.start_time) (subtract_fixed fa available) := by
  rw [subtract_fixed, List.pairwise_flatMap]
  refine ⟨fun a _ => subtract_pieces_sep fa a hfa, hsep.imp ?_⟩
  intro a b hab x hx y hy
  have hxa := subtract_pieces_bounds fa a x hx
  have hyb := subtract_pieces_bounds fa b y hy
  exact le_trans hxa.2 (le_trans hab hyb.1)

/-- Folding interval subtraction keeps every surviving piece inside one of the
starting intervals. -/
lemma subtract_foldl_sub (fas : List ScheduleBlock) :
    ∀ (avail : List ScheduleBlock) (x : ScheduleBlock),
      x ∈ fas.foldl (fun available fa => subtract_fixed fa available) avail →
      ∃ a ∈ avail, a.start_time ≤ x.start_time ∧ x.end_time ≤ a.end_time := by
  induction fas with
  | nil => intro avail x hx; exact ⟨x, hx, le_refl _, le_refl _⟩
  | cons fa fas ih =>
      intro avail x hx
      simp only [List.foldl_cons] at hx
      obtain ⟨a', ha', h1, h2⟩ := ih _ x hx
      obtain ⟨a, ha, h3, h4⟩ := subtract_fixed_sub fa avail a' ha'
      exact ⟨a, ha, le_trans h3 h1, le_trans h2 h4⟩

/-- Folding interval subtraction preserves chronological separation when all
subtracted activities are well-formed. -/
lemma subtract_foldl_sep (fas : List ScheduleBlock)
    (hfas : ∀ fa ∈ fas, fa.start_time ≤ fa.end_time) :
    ∀ avail : List ScheduleBlock,
      List.Pairwise (fun u v => u.end_time ≤ v.start_time) avail →
      List.Pairwise (fun u v => u.end_time ≤ v.start_time)
        (fas.foldl (fun available fa => subtract_fixed fa available) avail) := by
  induction fas with
  | nil => intro avail h; exact h
  | cons fa fas ih =>
      intro avail h
      simp only [List.foldl_cons]
      exact ih (fun g hg => hfas g (List.mem_cons_of_mem fa hg)) _
        (subtract_fixed_sep fa avail (hfas fa (List.mem_cons_self fa fas)) h)

/-- Every remaining interval of day `d` lies inside that day's base window
`[base+24d+8, base+24d+22]`. -/
lemma day_available_sub (base : ℚ) (d : Nat) (fas : List ScheduleBlock)
    (x : ScheduleBlock) (hx : x ∈ day_available base d fas) :
    base + 24 * d + 8 ≤ x.start_time ∧ x.end_time ≤ base + 24 * d + 22 := by
  obtain ⟨a, ha, h1, h2⟩ := subtract_foldl_sub fas _ x hx
  simp only [List.mem_singleton] at ha
  subst ha
  exact ⟨h1, h2⟩

/-- The remaining intervals of a day are chronologically separated. -/
lemma day_available_sep (base : ℚ) (d : Nat) (fas : List ScheduleBlock)
    (hfas : ∀ fa ∈ fas, fa.start_time ≤ fa.end_time) :
    List.Pairwise (fun u v => u.end_time ≤ v.start_time) (day_available base d fas) := by
  exact subtract_foldl_sep fas hfas _ (List.pairwise_singleton _ _)

/-- Every free-time slot lies inside the 08:00–22:00 window of a day offset
`d ∈ 1..7`. -/
lemma calculate_free_time_window (base : ℚ) (fas : List ScheduleBlock)
    (s : Slot) (hs : s ∈ calculate_free_time base fas) :
    ∃ d : Nat, 1 ≤ d ∧ d ≤ 7 ∧ base + 24 * d + 8 ≤ s.lo ∧ s.hi ≤ base + 24 * d + 22 := by
  rw [calculate_free_time, List.mem_flatMap] at hs
  obtain ⟨i, hi, hs⟩ := hs
  rw [List.mem_map] at hs
  obtain ⟨a, ha, rfl⟩ := hs
  rw [List.mem_filter] at ha
  have hb := day_available_sub base (i + 1) fas a ha.1
  refine ⟨i + 1, by omega, by have := List.mem_range.mp hi; omega, ?_, ?_⟩
  · simpa [Slot.lo] using hb.1
  · have := hb.2
    simp only [Slot.hi]
    linarith

/-- The free-time slots are chronologically separated across the whole
horizon: each slot ends no later than the next begins. -/
lemma calculate_free_time_sep (base : ℚ) (fas : List ScheduleBlock)
    (hfas : ∀ fa ∈ fas, fa.start_time ≤ fa.end_time) :
    List.Pairwise (fun s t : Slot => s.hi ≤ t.lo) (calculate_free_time base fas) := by
  rw [calculate_free_time, List.pairwise_flatMap]
  constructor
  · intro i _
    rw [List.pairwise_map]
    have hp := (day_available_sep base (i + 1) fas hfas).filter
      (fun a => decide (a.end_time - a.start_time ≥ 1/4))
    refine hp.imp ?_
    intro a b hab
    simp only [Slot.hi, Slot.lo]
    linarith
  · have hpw : List.Pairwise (· < ·) (List.range 7) := List.pairwise_lt_range 7
    refine hpw.imp ?_
    intro i j hij x hx y hy
    rw [List.mem_map] at hx hy
    obtain ⟨a, ha, rfl⟩ := hx
    obtain ⟨b, hb, rfl⟩ := hy
    rw [List.mem_filter] at ha hb
    have hba := day_available_sub base (i + 1) fas a ha.1
    have hbb := day_available_sub base (j + 1) fas b hb.1
    have hij' : (i : ℚ) + 1 ≤ (j : ℚ) := by exact_mod_cast hij
    simp only [Slot.hi, Slot.lo]
    push_cast at hba hbb
    linarith [hba.2, hbb.1]

/-- Every block emitted while allocating one task lies inside one of the
offered slots. -/
lemma allocate_for_task_block_sub (remaining : ℚ) (slots : List Slot) :
    ∀ b ∈ (allocate_for_task remaining slots).1, ∃ s ∈ slots,
      s.lo ≤ b.start_time ∧ b.end_time ≤ s.hi := by
  induction slots generalizing remaining with
  | nil => intro b hb; simp [allocate_for_task] at hb
  | cons slot rest ih =>
      intro b hb
      by_cases h0 : remaining ≤ 0
      · simp [allocate_for_task, if_pos h0] at hb
      · by_cases ha : min remaining slot.duration ≤ 0
        · simp only [allocate_for_task, if_neg h0, if_pos ha] at hb
          obtain ⟨s, hs, h1, h2⟩ := ih remaining b hb
          exact ⟨s, List.mem_cons_of_mem _ hs, h1, h2⟩
        · simp only [allocate_for_task, if_neg h0, if_neg ha] at hb
          rcases List.mem_cons.mp hb with rfl | hb
          · refine ⟨slot, List.mem_cons_self _ _, le_refl _, ?_⟩
            have := min_le_right remaining slot.duration
            simp only [Slot.lo, Slot.hi]
            linarith
          · obtain ⟨s, hs, h1, h2⟩ := ih _ b hb
            exact ⟨s, List.mem_cons_of_mem _ hs, h1, h2⟩

/-- After allocating one task, each surviving slot is a sub-interval of one of
the offered slots. -/
lemma allocate_for_task_slot_sub (remaining : ℚ) (slots : List Slot) :
    ∀ s' ∈ (allocate_for_task remaining slots).2.1, ∃ s ∈ slots,
      s.lo ≤ s'.lo ∧ s'.hi ≤ s.hi := by
  induction slots generalizing remaining with
  | nil => intro s' hs'; simp [allocate_for_task] at hs'
  | cons slot rest ih =>
      intro s' hs'
      by_cases h0 : remaining ≤ 0
      · simp only [allocate_for_task, if_pos h0] at hs'
        exact ⟨s', hs', le_refl _, le_refl _⟩
      · by_cases ha : min remaining slot.duration ≤ 0
        · simp only [allocate_for_task, if_neg h0, if_pos ha] at hs'
          rcases List.mem_cons.mp hs' with rfl | hs'
          · exact ⟨s', List.mem_cons_self _ _, le_refl _, le_refl _⟩
          · obtain ⟨s, hs, h1, h2⟩ := ih remaining s' hs'
            exact ⟨s, List.mem_cons_of_mem _ hs, h1, h2⟩
        · simp only [allocate_for_task, if_neg h0, if_neg ha] at hs'
          rcases List.mem_cons.mp hs' with rfl | hs'
          · refine ⟨slot, List.mem_cons_self _ _, ?_, ?_⟩
            · have := lt_of_not_le ha
              simp only [Slot.lo]
              linarith
            · simp only [Slot.hi]
              linarith
          · obtain ⟨s, hs, h1, h2⟩ := ih _ s' hs'
            exact ⟨s, List.mem_cons_of_mem _ hs, h1, h2⟩

/-- Allocating one task from a separated slot pool yields chronologically
separated blocks, keeps the pool separated, and leaves every emitted block
disjoint from every surviving slot. -/
lemma allocate_for_task_invariant (remaining : ℚ) (slots : List Slot)
    (hsep : List.Pairwise (fun s t : Slot => s.hi ≤ t.lo) slots) :
    List.Pairwise (fun b c => b.end_time ≤ c.start_time) (allocate_for_task remaining slots).1
    ∧ List.Pairwise (fun s t : Slot => s.hi ≤ t.lo) (allocate_for_task remaining slots).2.1
    ∧ ∀ b ∈ (allocate_for_task remaining slots).1,
        ∀ s ∈ (allocate_for_task remaining slots).2.1,
          b.end_time ≤ s.lo ∨ s.hi ≤ b.start_time := by
  induction slots generalizing remaining with
  | nil => simp [allocate_for_task]
  | cons slot rest ih =>
      rcases List.pairwise_cons.mp hsep with ⟨hhead, htail⟩
      by_cases h0 : remaining ≤ 0
      · simp only [allocate_for_task, if_pos h0]
        exact ⟨List.Pairwise.nil, hsep, by simp⟩
      · by_cases ha : min remaining slot.duration ≤ 0
        · obtain ⟨ih1, ih2, ih3⟩ := ih remaining htail
          simp only [allocate_for_task, if_neg h0, if_pos ha]
          refine ⟨ih1, ?_, ?_⟩
          · rw [List.pairwise_cons]
            refine ⟨fun t' ht' => ?_, ih2⟩
            obtain ⟨s, hs, hlo, _⟩ := allocate_for_task_slot_sub remaining rest t' ht'
            exact le_trans (hhead s hs) hlo
          · intro b hb s' hs'
            rcases List.mem_cons.mp hs' with rfl | hs'
            · obtain ⟨s, hs, hlo, _⟩ := allocate_for_task_block_sub remaining rest b hb
              exact Or.inr (le_trans (hhead s hs) hlo)
            · exact ih3 b hb s' hs'
        · obtain ⟨ih1, ih2, ih3⟩ := ih (remaining - min remaining slot.duration) htail
          have hmin : min remaining slot.duration ≤ slot.duration := min_le_right _ _
          have hpos : 0 < min remaining slot.duration := lt_of_not_le ha
          simp only [allocate_for_task, if_neg h0, if_neg ha]
          refine ⟨?_, ?_, ?_⟩
          · rw [List.pairwise_cons]
            refine ⟨fun c hc => ?_, ih1⟩
            obtain ⟨s, hs, hlo, _⟩ :=
              allocate_for_task_block_sub (remaining - min remaining slot.duration) rest c hc
            have := hhead s hs
            simp only [Slot.hi, Slot.lo] at this hlo ⊢
            linarith
          · rw [List.pairwise_cons]
            refine ⟨fun t' ht' => ?_, ih2⟩
            obtain ⟨s, hs, hlo, _⟩ :=
              allocate_for_task_slot_sub (remaining - min remaining slot.duration) rest t' ht'
            have := hhead s hs
            simp only [Slot.hi, Slot.lo] at this hlo ⊢
            linarith
          · intro b hb s' hs'
            rcases List.mem_cons.mp hb with rfl | hb
            · rcases List.mem_cons.mp hs' with rfl | hs'
              · exact Or.inl (by simp [Slot.lo])
              · obtain ⟨s, hs, hlo, _⟩ :=
                  allocate_for_task_slot_sub (remaining - min remaining slot.duration) rest s' hs'
                have := hhead s hs
                refine Or.inl ?_
                simp only [Slot.hi, Slot.lo] at this hlo ⊢
                linarith
            · rcases List.mem_cons.mp hs' with rfl | hs'
              · obtain ⟨s, hs, hlo, _⟩ :=
                  allocate_for_task_block_sub (remaining - min remaining slot.duration) rest b hb
                have := hhead s hs
                refine Or.inr ?_
                simp only [Slot.hi, Slot.lo] at this hlo ⊢
                linarith
              · exact ih3 b hb s' hs'

/-- Every block of a whole allocation run lies inside one of the initial
slots. -/
lemma allocate_all_blocks_sub (tasks : List (Int × ℚ)) :
    ∀ (slots : List Slot) (b : ScheduleBlock), b ∈ (allocate_all tasks slots).1 →
      ∃ s ∈ slots, s.lo ≤ b.start_time ∧ b.end_time ≤ s.hi := by
  induction tasks with
  | nil => intro slots b hb; simp [allocate_all] at hb
  | cons t ts ih =>
      intro slots b hb
      obtain ⟨tid, req⟩ := t
      simp only [allocate_all] at hb
      rcases List.mem_append.mp hb with hb | hb
      · exact allocate_for_task_block_sub req slots b hb
      · obtain ⟨s', hs', h1, h2⟩ := ih _ b hb
        obtain ⟨s, hs, h3, h4⟩ := allocate_for_task_slot_sub req slots s' hs'
        exact ⟨s, hs, le_trans h3 h1, le_trans h2 h4⟩

/-- The blocks of a whole allocation run over a separated slot pool are
pairwise disjoint. -/
lemma allocate_all_pairwise (tasks : List (Int × ℚ)) :
    ∀ slots : List Slot, List.Pairwise (fun s t : Slot => s.hi ≤ t.lo) slots →
      List.Pairwise (fun b c => b.end_time ≤ c.start_time ∨ c.end_time ≤ b.start_time)
        (allocate_all tasks slots).1 := by
  induction tasks with
  | nil => intro slots _; simp [allocate_all]
  | cons t ts ih =>
      intro slots hsep
      obtain ⟨tid, req⟩ := t
      simp only [allocate_all]
      obtain ⟨h1, h2, h3⟩ := allocate_for_task_invariant req slots hsep
      rw [List.pairwise_append]
      refine ⟨h1.imp (fun h => Or.inl h), ih _ h2, ?_⟩
      intro b hb c hc
      obtain ⟨s', hs', hlo, hhi⟩ := allocate_all_blocks_sub ts _ c hc
      rcases h3 b hb s' hs' with h | h
      · exact Or.inl (le_trans h hlo)
      · exact Or.inr (le_trans hhi h)

/-- C1: all flexible blocks inserted during a single `allocate_time_slots`
pass (one `generateSchedule` call) are pairwise non-overlapping under the
half-open interval test: for any two of them, one block's start is at or after
the other's end.  The hypothesis is the ScheduleBlock data-model invariant
`end > start` (here in the weaker form `start ≤ end`) for the user's stored
fixed activities, which every insertion path of the application validates. -/
theorem C1_generation_blocks_disjoint (base : ℚ) (fixed_activities : List ScheduleBlock)
    (prioritized : List (Int × ℚ))
    (hwf : ∀ fa ∈ fixed_activities, fa.start_time ≤ fa.end_time) :
    List.Pairwise (fun b c => c.start_time ≥ b.end_time ∨ b.start_time ≥ c.end_time)
      (allocate_time_slots base fixed_activities prioritized).blocks := by
  cases hE : (calculate_free_time base fixed_activities).isEmpty
  · simp only [allocate_time_slots, hE, Bool.false_eq_true, if_false]
    exact (allocate_all_pairwise prioritized _
      (calculate_free_time_sep base fixed_activities hwf)).imp
      (fun h => h.imp (fun h1 => h1) (fun h1 => h1))
  · simp only [allocate_time_slots, hE, if_true]
    exact List.Pairwise.nil

/-- Witness for C1: one user with no fixed activities and two tasks. -/
theorem C1_witness :
    List.Pairwise (fun b c => c.start_time ≥ b.end_time ∨ b.start_time ≥ c.end_time)
      (allocate_time_slots 0 [] [(1, 2), (2, 30)]).blocks :=
  C1_generation_blocks_disjoint 0 [] [(1, 2), (2, 30)] (by simp)

/-- C8: every flexible block produced by a `generateSchedule` pass lies inside
the 08:00–22:00 window of one single day whose offset from the calling day is
between 1 and 7 (`base` is local midnight of the calling day, so the window of
day offset `d` is `[base+24d+8, base+24d+22]`, entirely inside one calendar
day). -/
theorem C8_blocks_within_daily_window (base : ℚ) (fixed_activities : List ScheduleBlock)
    (prioritized : List (Int × ℚ)) (b : ScheduleBlock)
    (hb : b ∈ (allocate_time_slots base fixed_activities prioritized).blocks) :
    ∃ d : Nat, 1 ≤ d ∧ d ≤ 7 ∧ base + 24 * d + 8 ≤ b.start_time ∧
      b.end_time ≤ base + 24 * d + 22 := by
  rcases hE : (calculate_free_time base fixed_activities).isEmpty with _ | _
  · rw [allocate_time_slots] at hb
    simp only [hE, Bool.false_eq_true, if_false] at hb
    obtain ⟨s, hs, h1, h2⟩ := allocate_all_blocks_sub prioritized _ b hb
    obtain ⟨d, hd1, hd7, hw1, hw2⟩ := calculate_free_time_window base fixed_activities s hs
    exact ⟨d, hd1, hd7, le_trans hw1 h1, le_trans h2 hw2⟩
  · rw [allocate_time_slots] at hb
    simp only [hE, if_true] at hb
    simp at hb

/-- With no fixed activities, the seven daily windows survive whole: one
14-hour slot per day offset 1..7. -/
lemma calculate_free_time_no_fixed_eval :
    calculate_free_time 0 [] =
      [⟨32, 14⟩, ⟨56, 14⟩, ⟨80, 14⟩, ⟨104, 14⟩, ⟨128, 14⟩, ⟨152, 14⟩, ⟨176, 14⟩] := by
  norm_num [calculate_free_time, day_available, List.range_succ]

/-- A fixed activity covering `[0, 192]` swallows the whole daily window of
every day offset up to 7. -/
lemma day_available_covered (d : Nat) (hd : d ≤ 7) :
    day_available 0 d [⟨0, 192⟩] = [] := by
  have hdq : (d : ℚ) ≤ 7 := by exact_mod_cast hd
  have hd0 : (0 : ℚ) ≤ (d : ℚ) := Nat.cast_nonneg d
  rw [day_available]
  simp only [List.foldl_cons, List.foldl_nil, subtract_fixed, List.flatMap_cons,
    List.flatMap_nil, List.append_nil, subtract_pieces]
  have h1 : ¬((192 : ℚ) ≤ 0 + 24 * (d : ℚ) + 8 ∨ (0 : ℚ) ≥ 0 + 24 * (d : ℚ) + 22) := by
    push_neg
    constructor <;> linarith
  have h2 : ¬((0 : ℚ) > 0 + 24 * (d : ℚ) + 8) := by linarith
  have h3 : ¬((192 : ℚ) < 0 + 24 * (d : ℚ) + 22) := by linarith
  rw [if_neg h1, if_neg h2, if_neg h3]
  rfl

/-- A fixed activity covering `[0, 192]` leaves no free-time slot at all. -/
lemma calculate_free_time_covered_eval : calculate_free_time 0 [⟨0, 192⟩] = [] := by
  rw [calculate_free_time, List.flatMap_eq_nil_iff]
  intro i hi
  rw [day_available_covered (i + 1) (by have := List.mem_range.mp hi; omega)]
  rfl

/-- With no fixed activities, a single task of two required hours is placed as
one block 08:00–10:00 of day offset 1. -/
lemma allocate_small_eval :
    (allocate_time_slots 0 [] [(1, 2)]).blocks = [⟨32, 34⟩] := by
  rw [allocate_time_slots, calculate_free_time_no_fixed_eval]
  norm_num [allocate_all, allocate_for_task, min_def]

/-- Witness for C8: the block `[32, 34]` (= day offset 1, 08:00–10:00)
produced for a two-hour task lies inside a daily window. -/
theorem C8_witness :
    ∃ d : Nat, 1 ≤ d ∧ d ≤ 7 ∧ (0 : ℚ) + 24 * d + 8 ≤ (⟨32, 34⟩ : ScheduleBlock).start_time ∧
      (⟨32, 34⟩ : ScheduleBlock).end_time ≤ (0 : ℚ) + 24 * d + 22 :=
  C8_blocks_within_daily_window 0 [] [(1, 2)] ⟨32, 34⟩
    (by rw [allocate_small_eval]; simp)

/-- The warned ids of an allocation run are exactly the tasks whose final
remainder is positive, in task order. -/
lemma allocate_all_warned_eq (tasks : List (Int × ℚ)) :
    ∀ slots : List Slot, (allocate_all tasks slots).2 =
      ((task_remainders tasks slots).filter (fun p => decide (p.2 > 0))).map Prod.fst := by
  induction tasks with
  | nil => intro slots; simp [allocate_all, task_remainders]
  | cons t ts ih =>
      intro slots
      obtain ⟨tid, req⟩ := t
      simp only [allocate_all, task_remainders, List.filter_cons]
      by_cases h : (allocate_for_task req slots).2.2 > 0
      · simp [h, ih]
      · simp [h, ih]

/-- The blocks of an allocation run are the concatenation of every task's own
emitted blocks — blocks of under-allocated tasks included. -/
lemma allocate_all_blocks_eq (tasks : List (Int × ℚ)) :
    ∀ slots : List Slot, (allocate_all tasks slots).1 =
      (per_task_blocks tasks slots).flatten := by
  induction tasks with
  | nil => intro slots; simp [allocate_all, per_task_blocks]
  | cons t ts ih =>
      intro slots
      obtain ⟨tid, req⟩ := t
      simp only [allocate_all, per_task_blocks, List.flatten_cons, ih]

/-- C2 counterexample: when the free-time slot list is empty from the start,
`allocate_time_slots` returns before the task loop
(`if not available_slots: return`), so a task whose whole required effort is
left unplaced (remainder 5 > 0 after scanning all — zero — slots) is NOT
flagged `INSUFFICIENT_TIME_WARNING`. -/
theorem C2_counterexample_empty_pool_no_warning :
    (1, (5 : ℚ)) ∈ task_remainders [(1, 5)] (calculate_free_time 0 [⟨0, 192⟩])
    ∧ (5 : ℚ) > 0
    ∧ (1 : Int) ∉ (allocate_time_slots 0 [⟨0, 192⟩] [(1, 5)]).warned := by
  refine ⟨?_, by norm_num, ?_⟩
  · rw [calculate_free_time_covered_eval]
    simp [task_remainders, allocate_for_task]
  · simp only [allocate_time_slots, calculate_free_time_covered_eval]
    simp

/-- C2 (amended): provided the free-time slot list is non-empty, every task
whose remaining effort is still positive after the slot scan — and only such
a task — is flagged `INSUFFICIENT_TIME_WARNING`, and the emitted blocks are
the concatenation of every task's partial blocks (no rollback).  When the
slot list is empty from the start the function returns early and no task is
flagged. -/
theorem C2_amended_warning_needs_nonempty_pool (base : ℚ)
    (fixed_activities : List ScheduleBlock) (prioritized : List (Int × ℚ))
    (h : calculate_free_time base fixed_activities ≠ []) :
    (allocate_time_slots base fixed_activities prioritized).warned =
      ((task_remainders prioritized (calculate_free_time base fixed_activities)).filter
        (fun p => decide (p.2 > 0))).map Prod.fst
    ∧ (allocate_time_slots base fixed_activities prioritized).blocks =
      (per_task_blocks prioritized (calculate_free_time base fixed_activities)).flatten := by
  have hE : (calculate_free_time base fixed_activities).isEmpty = false := by
    cases hc : calculate_free_time base fixed_activities with
    | nil => exact absurd hc h
    | cons a l => rfl
  simp only [allocate_time_slots, hE, Bool.false_eq_true, if_false]
  exact ⟨allocate_all_warned_eq _ _, allocate_all_blocks_eq _ _⟩

/-- Witness for C2 (amended): no fixed activities (non-empty pool), one task
of five required hours. -/
theorem C2_amended_witness :
    (allocate_time_slots 0 [] [(1, 5)]).warned =
      ((task_remainders [(1, 5)] (calculate_free_time 0 [])).filter
        (fun p => decide (p.2 > 0))).map Prod.fst
    ∧ (allocate_time_slots 0 [] [(1, 5)]).blocks =
      (per_task_blocks [(1, 5)] (calculate_free_time 0 [])).flatten :=
  C2_amended_warning_needs_nonempty_pool 0 [] [(1, 5)]
    (by rw [calculate_free_time_no_fixed_eval]; simp)

end StudyPlanner
